import Mathlib

/-!
Verification development for the AI agent chat widget
(`src/components/AIAgentWidget.ts`).

The widget's protocol logic is embedded shallowly: strings are `List Char`
(JavaScript strings at the code points the widget manipulates), the host
document is a list of form elements, the key-value store is an
`Option StoredRecord`, and the streaming transport is the list of decoded
text chunks delivered by successive `reader.read()` calls.  Every
definition is translated from the TypeScript source; DOM-only effects
(rendering, notifications, scroll position) have no bearing on the
verified state and are omitted.
-/

namespace AIAgentWidget

/-! ## Basic string machinery

JavaScript `String.prototype.trim`, `String.prototype.split('\n')`,
`String.prototype.startsWith` / `slice`, and first-occurrence search, all
on `List Char`. -/

/-- Whitespace recognised by JavaScript `trim` (ASCII white space plus
no-break space; the remaining Unicode space code points do not occur in
the widget's data). -/
def isJsWs (c : Char) : Bool :=
  c = ' ' || c = '\t' || c = '\n' || c = '\r' || c = '\x0b' || c = '\x0c' || c = ' '

/-- JavaScript `s.trim()`. -/
def trimJS (s : List Char) : List Char :=
  ((s.dropWhile isJsWs).reverse.dropWhile isJsWs).reverse

/-- JavaScript `s.split('\n')`: `"".split('\n') = [""]`, separators are
consumed, an ending newline yields a final empty piece. -/
def splitOnNl : List Char → List (List Char)
  | [] => [[]]
  | c :: cs =>
    if c = '\n' then [] :: splitOnNl cs
    else
      match splitOnNl cs with
      | [] => [[c]]
      | l :: ls => (c :: l) :: ls

/-- If `pat` leads `s`, return the remainder of `s` after it
(JavaScript `startsWith` combined with `slice(pat.length)`). -/
def afterLit : List Char → List Char → Option (List Char)
  | [], s => some s
  | _ :: _, [] => none
  | p :: ps, c :: cs => if p = c then afterLit ps cs else none

/-- First occurrence of `pat` in `s`: `some (pre, rest)` with
`s = pre ++ pat ++ rest` and `pre` shortest possible. -/
def splitFirst (pat : List Char) : List Char → Option (List Char × List Char)
  | [] =>
    match afterLit pat [] with
    | some r => some ([], r)
    | none => none
  | c :: cs =>
    match afterLit pat (c :: cs) with
    | some r => some ([], r)
    | none => (splitFirst pat cs).map fun pr => (c :: pr.1, pr.2)

/-- `s` has `pat` as a contiguous substring. -/
def containsSub (pat s : List Char) : Bool :=
  (splitFirst pat s).isSome

/-! ## JSON (`JSON.parse`)

The stream consumer calls `JSON.parse` on each SSE payload.  The parser
below accepts exactly the JSON grammar (objects, arrays, strings with
escapes, numbers, literals) and demands that the whole input be consumed,
as `JSON.parse` does.  Surrogate pairing of `\uXXXX` escapes is not
recombined (irrelevant to the widget's frames). -/

inductive JsonVal where
  | null : JsonVal
  | bool (b : Bool) : JsonVal
  | num (lexeme : List Char) : JsonVal
  | str (s : List Char) : JsonVal
  | arr (xs : List JsonVal) : JsonVal
  | obj (fields : List (List Char × JsonVal)) : JsonVal

/-- JSON insignificant whitespace. -/
def isJsonWs (c : Char) : Bool :=
  c = ' ' || c = '\t' || c = '\n' || c = '\r'

def skipWs (s : List Char) : List Char := s.dropWhile isJsonWs

def hexVal (c : Char) : Option Nat :=
  if '0' ≤ c ∧ c ≤ '9' then some (c.toNat - 48)
  else if 'a' ≤ c ∧ c ≤ 'f' then some (c.toNat - 87)
  else if 'A' ≤ c ∧ c ≤ 'F' then some (c.toNat - 55)
  else none

def escChar : Char → Option Char
  | '"' => some '"'
  | '\\' => some '\\'
  | '/' => some '/'
  | 'b' => some '\x08'
  | 'f' => some '\x0c'
  | 'n' => some '\n'
  | 'r' => some '\r'
  | 't' => some '\t'
  | _ => none

/-- Remainder of a JSON string literal, after the opening quote: returns
the decoded contents and the input following the closing quote. -/
def parseJStr : List Char → Option (List Char × List Char)
  | [] => none
  | '"' :: rest => some ([], rest)
  | '\\' :: 'u' :: h1 :: h2 :: h3 :: h4 :: rest =>
    match hexVal h1, hexVal h2, hexVal h3, hexVal h4 with
    | some a, some b, some c, some d =>
      (parseJStr rest).map fun pr =>
        (Char.ofNat (((a * 16 + b) * 16 + c) * 16 + d) :: pr.1, pr.2)
    | _, _, _, _ => none
  | '\\' :: e :: rest =>
    match escChar e with
    | some ec => (parseJStr rest).map fun pr => (ec :: pr.1, pr.2)
    | none => none
  | c :: rest =>
    if c.toNat < 32 then none
    else (parseJStr rest).map fun pr => (c :: pr.1, pr.2)

def isDigit (c : Char) : Bool := '0' ≤ c && c ≤ '9'

/-- JSON number lexeme `-? (0 | [1-9][0-9]*) frac? exp?`.  A malformed
tail (for instance `1.`) is left unconsumed, which makes the whole
`JSON.parse` fail because the input must be consumed entirely. -/
def parseNum (s : List Char) : Option (List Char × List Char) :=
  let np : List Char × List Char :=
    match s with
    | '-' :: t => (['-'], t)
    | _ => ([], s)
  match np.2 with
  | [] => none
  | c :: t =>
    if isDigit c then
      let ip : List Char × List Char :=
        if c = '0' then ([c], t)
        else (c :: t.takeWhile isDigit, t.dropWhile isDigit)
      let fp : List Char × List Char :=
        match ip.2 with
        | '.' :: u =>
          if u.takeWhile isDigit ≠ [] then
            ('.' :: u.takeWhile isDigit, u.dropWhile isDigit)
          else ([], ip.2)
        | _ => ([], ip.2)
      let ep : List Char × List Char :=
        match fp.2 with
        | e :: u =>
          if e = 'e' ∨ e = 'E' then
            let sg : List Char × List Char :=
              match u with
              | x :: w => if x = '+' ∨ x = '-' then ([x], w) else ([], u)
              | [] => ([], u)
            if sg.2.takeWhile isDigit ≠ [] then
              (e :: sg.1 ++ sg.2.takeWhile isDigit, sg.2.dropWhile isDigit)
            else ([], fp.2)
          else ([], fp.2)
        | [] => ([], fp.2)
      some (np.1 ++ ip.1 ++ fp.1 ++ ep.1, ep.2)
    else none

mutual

def parseValue : Nat → List Char → Option (JsonVal × List Char)
  | 0, _ => none
  | fuel + 1, s0 =>
    match skipWs s0 with
    | '\x7b' :: r =>
      match skipWs r with
      | '\x7d' :: r2 => some (.obj [], r2)
      | _ => (parseMembers fuel r).map fun pr => (JsonVal.obj pr.1, pr.2)
    | '[' :: r =>
      match skipWs r with
      | ']' :: r2 => some (.arr [], r2)
      | _ => (parseElems fuel r).map fun pr => (JsonVal.arr pr.1, pr.2)
    | '"' :: r => (parseJStr r).map fun pr => (JsonVal.str pr.1, pr.2)
    | 't' :: 'r' :: 'u' :: 'e' :: r => some (.bool true, r)
    | 'f' :: 'a' :: 'l' :: 's' :: 'e' :: r => some (.bool false, r)
    | 'n' :: 'u' :: 'l' :: 'l' :: r => some (.null, r)
    | r => (parseNum r).map fun pr => (JsonVal.num pr.1, pr.2)

def parseMembers : Nat → List Char → Option (List (List Char × JsonVal) × List Char)
  | 0, _ => none
  | fuel + 1, s =>
    match skipWs s with
    | '"' :: r =>
      match parseJStr r with
      | none => none
      | some (key, r1) =>
        match skipWs r1 with
        | ':' :: r2 =>
          match parseValue fuel r2 with
          | none => none
          | some (v, r3) =>
            match skipWs r3 with
            | ',' :: r4 => (parseMembers fuel r4).map fun pr => ((key, v) :: pr.1, pr.2)
            | '\x7d' :: r4 => some ([(key, v)], r4)
            | _ => none
        | _ => none
    | _ => none

def parseElems : Nat → List Char → Option (List JsonVal × List Char)
  | 0, _ => none
  | fuel + 1, s =>
    match parseValue fuel s with
    | none => none
    | some (v, r) =>
      match skipWs r with
      | ',' :: r2 => (parseElems fuel r2).map fun pr => (v :: pr.1, pr.2)
      | ']' :: r2 => some ([v], r2)
      | _ => none

end

/-- `JSON.parse`: parse one value and require the rest of the input to be
whitespace. -/
def jsonParse (s : List Char) : Option JsonVal :=
  match parseValue (s.length + 1) s with
  | some (v, rest) => if skipWs rest = [] then some v else none
  | none => none

/-- JavaScript object property lookup on a parsed literal: with duplicate
keys the last one wins. -/
def objLookup (key : List Char) : List (List Char × JsonVal) → Option JsonVal
  | [] => none
  | (k, v) :: rest =>
    match objLookup key rest with
    | some v' => some v'
    | none => if k = key then some v else none

/-! ## Stream consumer (`streamChatResponse`, read loop, lines 1307–1334)

```ts
while (true) {
  const { done, value } = await reader.read();
  if (done) break;
  const chunk = decoder.decode(value, { stream: true });
  const lines = chunk.split('\n');
  for (const line of lines) {
    if (line.startsWith('data: ')) {
      const data = line.slice(6);
      if (data === '[DONE]') break;           // inner for-loop only
      try {
        const parsed = JSON.parse(data);
        if (parsed.content) assistantMessage.content += parsed.content;
      } catch (e) { /- ignore parse errors for partial chunks -/ }
    }
  }
}
```

There is no rolling buffer: each decoded chunk is split on newlines on
its own. -/

def dataPre : List Char := "data: ".data

def doneLit : List Char := "[DONE]".data

/-- A complete `data: [DONE]` line. -/
def doneLine : List Char := dataPre ++ doneLit

/-- `if (parsed.content) assistantMessage.content += parsed.content`:
the string appended for one payload (empty when the payload is not valid
JSON, not an object, or lacks a truthy `content`).  JavaScript's coercion
of a non-string truthy `content` is not modelled: protocol frames carry
string deltas. -/
def contentDelta (data : List Char) : List Char :=
  match jsonParse data with
  | some (.obj fields) =>
    match objLookup "content".data fields with
    | some (.str s) => s
    | _ => []
  | _ => []

/-- The `for (const line of lines)` loop: a `data: [DONE]` line stops the
processing of the remaining lines of the same chunk (the `break` leaves
only the inner loop). -/
def processLines : List (List Char) → List Char → List Char
  | [], acc => acc
  | l :: ls, acc =>
    match afterLit dataPre l with
    | none => processLines ls acc
    | some d => if d = doneLit then acc else processLines ls (acc ++ contentDelta d)

/-- One iteration of the `while` loop for a decoded chunk. -/
def processChunk (acc : List Char) (chunk : List Char) : List Char :=
  processLines (splitOnNl chunk) acc

/-- The accumulated assistant content after the reader has delivered the
given decoded chunks. -/
def runStream (chunks : List (List Char)) : List Char :=
  chunks.foldl processChunk []

/-! ## Field accessor (`getPageFormFields`, `readFormField`, `writeFormField`)

The host document is modelled as the ordered list of its input-like
elements (`input`, `textarea`, `select`); the `instanceof` guards of the
source restrict all three functions to exactly these elements, so other
nodes never participate.  `el.id`/`el.name` are the (possibly empty)
attribute strings. -/

inductive ElemTag where
  | input : ElemTag
  | textarea : ElemTag
  | selectElem : ElemTag
deriving DecidableEq

structure FormElement where
  tag : ElemTag
  id : List Char
  name : List Char
  /-- the element's `type` property (`el.type`); named `ty` because
  `type` reads poorly in Lean -/
  ty : List Char
  value : List Char
deriving DecidableEq

abbrev Doc := List FormElement

structure FieldDescriptor where
  id : List Char
  name : List Char
  ty : List Char
  value : List Char
deriving DecidableEq

/-- The contribution of one element to `getPageFormFields` (lines
123–159): skip password/hidden inputs, skip elements whose `id || name`
is empty, otherwise record the descriptor. -/
def descOf (el : FormElement) : Option FieldDescriptor :=
  let id := if el.id ≠ [] then el.id else el.name
  if el.tag = .input ∧ (el.ty = "password".data ∨ el.ty = "hidden".data) then none
  else if id ≠ [] then
    some { id := id
           name := if el.name ≠ [] then el.name else el.id
           ty :=
             match el.tag with
             | .textarea => "textarea".data
             | .selectElem => "select".data
             | .input => if el.ty ≠ [] then el.ty else "text".data
           value := el.value }
  else none

def getPageFormFields (doc : Doc) : List FieldDescriptor :=
  doc.filterMap descOf

/-- `document.getElementById(fieldId) || document.querySelector(`[name="${fieldId}"]`)`:
first element with the exact id (ids are never empty in the DOM id map),
else the first element with the exact name. -/
def lookupField (doc : Doc) (fieldId : List Char) : Option FormElement :=
  match (if fieldId = [] then none else doc.find? fun el => el.id == fieldId) with
  | some el => some el
  | none => doc.find? fun el => el.name == fieldId

/-- `readFormField` (lines 164–175): value of the looked-up element, or
`null`.  No type check is performed. -/
def readFormField (doc : Doc) (fieldId : List Char) : Option (List Char) :=
  (lookupField doc fieldId).map (·.value)

/-- Set the value of the first element satisfying `p`. -/
def updateFirst (p : FormElement → Bool) (content : List Char) : Doc → Option Doc
  | [] => none
  | el :: rest =>
    if p el then some ({ el with value := content } :: rest)
    else (updateFirst p content rest).map (el :: ·)

/-- `writeFormField` (lines 180–197): same lookup as `readFormField`,
sets the value and reports whether a target was found.  The dispatched
`input`/`change` events have no model-visible effect.  No type check is
performed. -/
def writeFormField (doc : Doc) (fieldId content : List Char) : Doc × Bool :=
  match (if fieldId = [] then none else updateFirst (fun el => el.id == fieldId) content doc) with
  | some doc' => (doc', true)
  | none =>
    match updateFirst (fun el => el.name == fieldId) content doc with
    | some doc' => (doc', true)
    | none => (doc, false)

/-! ## Command parser

`processFieldCommands` and `removeFieldCommands` both use the global
regex `\[WRITE_FIELD:([^\]]+)\]\s*([\s\S]*?)\s*\[\/WRITE_FIELD\]`.
A match therefore starts at the first position offering the literal
`[WRITE_FIELD:`, a non-empty run of non-`]` characters, `]`, and then
everything up to the *first* later `[/WRITE_FIELD]` (non-greedy middle);
the surrounding `\s*` only shifts whitespace between group 2 and the
span, and both captured groups are `trim`med by `processFieldCommands`
before use, so the body below is taken verbatim between the tags.
`matchNext` returns the first match as
`(text before the span, raw id, raw body, text after the span)`. -/

def openL : List Char := "[WRITE_FIELD:".data

def closeL : List Char := "[/WRITE_FIELD]".data

/-- Attempt of the regex to match starting exactly at the head of `s`. -/
def tryMatchAt (s : List Char) : Option (List Char × List Char × List Char) :=
  match afterLit openL s with
  | none => none
  | some r =>
    match r.dropWhile (fun c => c ≠ ']') with
    | [] => none
    | _ :: r2 =>
      if r.takeWhile (fun c => c ≠ ']') = [] then none
      else
        match splitFirst closeL r2 with
        | none => none
        | some (body, rest) => some (r.takeWhile (fun c => c ≠ ']'), body, rest)

/-- First match of the write-directive regex in `s`. -/
def matchNext : List Char → Option (List Char × List Char × List Char × List Char)
  | [] => none
  | c :: cs =>
    match tryMatchAt (c :: cs) with
    | some (id, body, rest) => some ([], id, body, rest)
    | none => (matchNext cs).map fun q => (c :: q.1, q.2.1, q.2.2.1, q.2.2.2)

theorem afterLit_eq : ∀ {p s r : List Char}, afterLit p s = some r → s = p ++ r
  | [], _, _, h => by simpa [afterLit] using (Option.some.injEq _ _ ▸ h).symm ▸ rfl
  | p :: ps, [], r, h => by simp [afterLit] at h
  | p :: ps, c :: cs, r, h => by
    by_cases hpc : p = c
    · subst hpc
      simp only [afterLit, if_pos rfl] at h
      simpa using afterLit_eq h
    · simp [afterLit, hpc] at h

theorem splitFirst_eq : ∀ {pat s pre rest : List Char},
    splitFirst pat s = some (pre, rest) → s = pre ++ pat ++ rest := by
  intro pat s
  induction s with
  | nil =>
    intro pre rest h
    simp only [splitFirst] at h
    cases hal : afterLit pat [] with
    | none => rw [hal] at h; exact absurd h (by simp)
    | some r =>
      rw [hal] at h
      have := afterLit_eq hal
      cases h
      simpa using this
  | cons c cs ih =>
    intro pre rest h
    simp only [splitFirst] at h
    cases hal : afterLit pat (c :: cs) with
    | some r =>
      rw [hal] at h
      cases h
      simpa using afterLit_eq hal
    | none =>
      rw [hal] at h
      cases hsf : splitFirst pat cs with
      | none => rw [hsf] at h; exact absurd h (by simp)
      | some pr =>
        rw [hsf] at h
        cases h
        have := ih (show splitFirst pat cs = some (pr.1, pr.2) by rw [hsf])
        simp [this]

theorem tryMatchAt_eq {s id body rest : List Char}
    (h : tryMatchAt s = some (id, body, rest)) :
    s = openL ++ id ++ ']' :: (body ++ closeL ++ rest) := by
  unfold tryMatchAt at h
  split at h
  · exact absurd h (by simp)
  next r hal =>
    have hs : s = openL ++ r := afterLit_eq hal
    split at h
    · exact absurd h (by simp)
    next x r2 hdw =>
      split at h
      · exact absurd h (by simp)
      next hid =>
        split at h
        · exact absurd h (by simp)
        next body' rest' hsf =>
          obtain ⟨hid', hbody, hrest⟩ : r.takeWhile (fun c => c ≠ ']') = id ∧ body' = body ∧ rest' = rest := by
            simpa using h
          have hr2 : r2 = body ++ closeL ++ rest := by
            have := splitFirst_eq hsf
            rw [hbody, hrest] at this
            simpa using this
          have hx : x = ']' := by
            have := List.head?_dropWhile_not (fun c => decide (c ≠ ']')) r
            rw [hdw] at this
            simpa using this
          have hr : r = id ++ ']' :: r2 := by
            conv_lhs => rw [← List.takeWhile_append_dropWhile (fun c => decide (c ≠ ']')) r]
            rw [hdw, hx, ← hid']
          rw [hs, hr, hr2]
          simp [List.append_assoc]


theorem matchNext_eq : ∀ {s pre id body rest : List Char},
    matchNext s = some (pre, id, body, rest) →
    s = pre ++ openL ++ id ++ ']' :: (body ++ closeL ++ rest) := by
  intro s
  induction s with
  | nil => intro pre id body rest h; simp [matchNext] at h
  | cons c cs ih =>
    intro pre id body rest h
    simp only [matchNext] at h
    cases htm : tryMatchAt (c :: cs) with
    | some q =>
      obtain ⟨q1, q2, q3⟩ := q
      rw [htm] at h
      obtain ⟨hpre, hid, hbody, hrest⟩ : [] = pre ∧ q1 = id ∧ q2 = body ∧ q3 = rest := by
        simpa using h
      subst hpre hid hbody hrest
      simpa using tryMatchAt_eq htm
    | none =>
      rw [htm] at h
      obtain ⟨q, hq, hf⟩ := Option.map_eq_some'.mp h
      obtain ⟨p', i', b', r'⟩ := q
      obtain ⟨hpre, hid, hbody, hrest⟩ : c :: p' = pre ∧ i' = id ∧ b' = body ∧ r' = rest := by
        simpa using hf
      subst hpre hid hbody hrest
      have := ih hq
      simp [this]

theorem matchNext_rest_length {s pre id body rest : List Char}
    (h : matchNext s = some (pre, id, body, rest)) : rest.length < s.length := by
  have hs := matchNext_eq h
  subst hs
  simp only [List.length_append, List.length_cons]
  omega

/-- Iterating the global regex from the end of the previous match, with
fuel (any fuel above the input length is enough, because every match
consumes at least one character; see `extractWritesAux_congr`). -/
def extractWritesAux : Nat → List Char → List (List Char × List Char)
  | 0, _ => []
  | fuel + 1, s =>
    match matchNext s with
    | none => []
    | some (_, id, body, rest) => (trimJS id, trimJS body) :: extractWritesAux fuel rest

/-- The ordered `{field id, body}` extraction of the
`while ((match = writeFieldRegex.exec(content)) !== null)` loop in
`processFieldCommands` (lines 1376–1388), with the `trim()` of both
captured groups applied. -/
def extractWrites (s : List Char) : List (List Char × List Char) :=
  extractWritesAux (s.length + 1) s

theorem extractWritesAux_congr : ∀ {f1 : Nat} {s : List Char} (f2 : Nat),
    s.length < f1 → s.length < f2 → extractWritesAux f1 s = extractWritesAux f2 s := by
  intro f1
  induction f1 with
  | zero => intro s f2 h1; omega
  | succ f1 ih =>
    intro s f2 h1 h2
    cases f2 with
    | zero => omega
    | succ f2 =>
      cases hm : matchNext s with
      | none => simp only [extractWritesAux, hm]
      | some q =>
        obtain ⟨pre, id, body, rest⟩ := q
        have hlt := matchNext_rest_length hm
        simp only [extractWritesAux, hm]
        rw [ih f2 (by omega) (by omega)]

theorem extractWrites_eq (s : List Char) :
    extractWrites s =
      match matchNext s with
      | none => []
      | some (_, id, body, rest) => (trimJS id, trimJS body) :: extractWrites rest := by
  cases hm : matchNext s with
  | none =>
    show extractWritesAux (s.length + 1) s = []
    simp only [extractWritesAux, hm]
  | some q =>
    obtain ⟨pre, id, body, rest⟩ := q
    have hlt := matchNext_rest_length hm
    show extractWritesAux (s.length + 1) s
        = (trimJS id, trimJS body) :: extractWritesAux (rest.length + 1) rest
    conv_lhs => simp only [extractWritesAux, hm]
    rw [extractWritesAux_congr (rest.length + 1) (by omega) (by omega)]

/-- Fueled version of `removeFieldCommands`. -/
def removeFieldCommandsAux : Nat → List Char → List Char
  | 0, s => s
  | fuel + 1, s =>
    match matchNext s with
    | none => s
    | some (pre, _, _, rest) => pre ++ removeFieldCommandsAux fuel rest

/-- `removeFieldCommands` (lines 1368–1371): replace every matched
write-directive span with the empty string. -/
def removeFieldCommands (content : List Char) : List Char :=
  removeFieldCommandsAux (content.length + 1) content

theorem removeFieldCommandsAux_congr : ∀ {f1 : Nat} {s : List Char} (f2 : Nat),
    s.length < f1 → s.length < f2 →
    removeFieldCommandsAux f1 s = removeFieldCommandsAux f2 s := by
  intro f1
  induction f1 with
  | zero => intro s f2 h1; omega
  | succ f1 ih =>
    intro s f2 h1 h2
    cases f2 with
    | zero => omega
    | succ f2 =>
      cases hm : matchNext s with
      | none => simp only [removeFieldCommandsAux, hm]
      | some q =>
        obtain ⟨pre, id, body, rest⟩ := q
        have hlt := matchNext_rest_length hm
        simp only [removeFieldCommandsAux, hm]
        rw [ih f2 (by omega) (by omega)]

theorem removeFieldCommands_eq (s : List Char) :
    removeFieldCommands s =
      match matchNext s with
      | none => s
      | some (pre, _, _, rest) => pre ++ removeFieldCommands rest := by
  cases hm : matchNext s with
  | none =>
    show removeFieldCommandsAux (s.length + 1) s = s
    simp only [removeFieldCommandsAux, hm]
  | some q =>
    obtain ⟨pre, id, body, rest⟩ := q
    have hlt := matchNext_rest_length hm
    show removeFieldCommandsAux (s.length + 1) s
        = pre ++ removeFieldCommandsAux (rest.length + 1) rest
    conv_lhs => simp only [removeFieldCommandsAux, hm]
    rw [removeFieldCommandsAux_congr (rest.length + 1) (by omega) (by omega)]

/-! ### Read directives (`processFieldReads`, lines 271–295)

Global regex `\[READ_FIELD:([^\]]+)\]`; each matched token is replaced by
`[Field "<id>" contains: "<value>"]` or `[Field "<id>" not found]`.  The
source iterates `exec` over the original string while replacing the first
occurrence of the matched token text in the processed string; for
replacement texts that do not themselves contain a read token (the case
for this protocol) that equals the single left-to-right substitution pass
below. -/

def readOpenL : List Char := "[READ_FIELD:".data

def tryMatchReadAt (s : List Char) : Option (List Char × List Char) :=
  match afterLit readOpenL s with
  | none => none
  | some r =>
    match r.dropWhile (fun c => c ≠ ']') with
    | [] => none
    | _ :: r2 =>
      if r.takeWhile (fun c => c ≠ ']') = [] then none
      else some (r.takeWhile (fun c => c ≠ ']'), r2)

def matchNextRead : List Char → Option (List Char × List Char × List Char)
  | [] => none
  | c :: cs =>
    match tryMatchReadAt (c :: cs) with
    | some q => some ([], q.1, q.2)
    | none => (matchNextRead cs).map fun q => (c :: q.1, q.2.1, q.2.2)

theorem tryMatchReadAt_eq {s id rest : List Char}
    (h : tryMatchReadAt s = some (id, rest)) :
    s = readOpenL ++ id ++ ']' :: rest := by
  unfold tryMatchReadAt at h
  split at h
  · exact absurd h (by simp)
  next r hal =>
    have hs : s = readOpenL ++ r := afterLit_eq hal
    split at h
    · exact absurd h (by simp)
    next x r2 hdw =>
      split at h
      · exact absurd h (by simp)
      next hid =>
        obtain ⟨hid', hrest⟩ : r.takeWhile (fun c => c ≠ ']') = id ∧ r2 = rest := by
          simpa using h
        have hx : x = ']' := by
          have := List.head?_dropWhile_not (fun c => decide (c ≠ ']')) r
          rw [hdw] at this
          simpa using this
        have hr : r = id ++ ']' :: r2 := by
          conv_lhs => rw [← List.takeWhile_append_dropWhile (fun c => decide (c ≠ ']')) r]
          rw [hdw, hx, ← hid']
        rw [hs, hr, hrest]
        simp [List.append_assoc]

theorem matchNextRead_eq : ∀ {s pre id rest : List Char},
    matchNextRead s = some (pre, id, rest) →
    s = pre ++ readOpenL ++ id ++ ']' :: rest := by
  intro s
  induction s with
  | nil => intro pre id rest h; simp [matchNextRead] at h
  | cons c cs ih =>
    intro pre id rest h
    simp only [matchNextRead] at h
    cases htm : tryMatchReadAt (c :: cs) with
    | some q =>
      obtain ⟨q1, q2⟩ := q
      rw [htm] at h
      obtain ⟨hpre, hid, hrest⟩ : [] = pre ∧ q1 = id ∧ q2 = rest := by simpa using h
      subst hpre hid hrest
      simpa using tryMatchReadAt_eq htm
    | none =>
      rw [htm] at h
      obtain ⟨q, hq, hf⟩ := Option.map_eq_some'.mp h
      obtain ⟨p', i', r'⟩ := q
      obtain ⟨hpre, hid, hrest⟩ : c :: p' = pre ∧ i' = id ∧ r' = rest := by simpa using hf
      subst hpre hid hrest
      have := ih hq
      simp [this]

theorem matchNextRead_rest_length {s pre id rest : List Char}
    (h : matchNextRead s = some (pre, id, rest)) : rest.length < s.length := by
  have hs := matchNextRead_eq h
  subst hs
  simp only [List.length_append, List.length_cons]
  omega

def fieldFound (id value : List Char) : List Char :=
  "[Field \"".data ++ id ++ "\" contains: \"".data ++ value ++ "\"]".data

def fieldMissing (id : List Char) : List Char :=
  "[Field \"".data ++ id ++ "\" not found]".data

/-- Fueled version of `processFieldReads`. -/
def processFieldReadsAux (doc : Doc) : Nat → List Char → List Char
  | 0, content => content
  | fuel + 1, content =>
    match matchNextRead content with
    | none => content
    | some (pre, idRaw, rest) =>
      (match readFormField doc (trimJS idRaw) with
       | some v => pre ++ fieldFound (trimJS idRaw) v
       | none => pre ++ fieldMissing (trimJS idRaw)) ++ processFieldReadsAux doc fuel rest

/-- `processFieldReads`: substitute every `[READ_FIELD:<id>]` token with
the field's value annotation (or a not-found annotation). -/
def processFieldReads (doc : Doc) (content : List Char) : List Char :=
  processFieldReadsAux doc (content.length + 1) content

/-! ### Applying write directives (`processFieldCommands`, lines 1376–1409) -/

structure FieldWrite where
  field : List Char
  content : List Char
  success : Bool
deriving DecidableEq

/-- The body of the `exec` loop: each extracted `{id, body}` pair is
written through `writeFormField` against the current document, in order. -/
def applyWrites (doc : Doc) : List (List Char × List Char) → List FieldWrite × Doc
  | [] => ([], doc)
  | (f, c) :: rest =>
    let wr := writeFormField doc f c
    let tail := applyWrites wr.1 rest
    (⟨f, c, wr.2⟩ :: tail.1, tail.2)

/-- `processFieldCommands`: extract all write directives and apply them;
returns the per-directive results and the updated document.  (The
notification banners it also shows are DOM-only.) -/
def processFieldCommands (doc : Doc) (content : List Char) : List FieldWrite × Doc :=
  applyWrites doc (extractWrites content)


/-! ### Field-context injection (`injectFieldContext`, lines 300–328)

The source builds per-field regexes `new RegExp(`\b(id|name)\b`, 'i')`
and tests `/\b(check|review|read|see|look at|show|tell me about)\b.*\b(field|content|value)\b/i`.
Word-bounded case-insensitive matching is modelled over ASCII (`\w` is
`[A-Za-z0-9_]` in JavaScript; `.` does not cross line terminators). -/

def isWordChar (c : Char) : Bool :=
  ('a' ≤ c && c ≤ 'z') || ('A' ≤ c && c ≤ 'Z') || ('0' ≤ c && c ≤ '9') || c = '_'

/-- `w` occurs in `s` at position `i`, case-insensitively. -/
def matchesAtCI (s w : List Char) (i : Nat) : Bool :=
  ((s.drop i).take w.length).map Char.toLower == w.map Char.toLower

/-- `w` occurs at `i` with `\b` on both sides. -/
def wordAtCI (s w : List Char) (i : Nat) : Bool :=
  matchesAtCI s w i &&
  (i == 0 ||
    (match s.get? (i - 1) with
     | some c => !isWordChar c
     | none => true)) &&
  (match s.get? (i + w.length) with
   | some c => !isWordChar c
   | none => true)

def containsWordCI (s w : List Char) : Bool :=
  (List.range (s.length + 1)).any fun i => wordAtCI s w i

def checkingKeywords : List (List Char) :=
  ["check".data, "review".data, "read".data, "see".data, "look at".data,
   "show".data, "tell me about".data]

def checkingTargets : List (List Char) :=
  ["field".data, "content".data, "value".data]

/-- `checkingPattern.test(userMessage)`: a keyword occurrence followed
(without an intervening line terminator, since `.` matches neither `\n`
nor `\r`) by a target-word occurrence, both word-bounded. -/
def checkingTest (s : List Char) : Bool :=
  (List.range (s.length + 1)).any fun i =>
    checkingKeywords.any fun kw =>
      wordAtCI s kw i &&
      ((List.range (s.length + 1)).any fun j =>
        decide (i + kw.length ≤ j) &&
        checkingTargets.any (fun tw => wordAtCI s tw j) &&
        !(((s.drop (i + kw.length)).take (j - (i + kw.length))).any fun c =>
            c = '\n' || c = '\r'))

/-- `value.substring(0, 200)` plus the `'...'` ellipsis. -/
def clip200 (v : List Char) : List Char :=
  v.take 200 ++ (if v.length > 200 then "...".data else [])

/-- `injectFieldContext`: when the user appears to ask about mentioned
fields, append their current values to the outgoing message. -/
def injectFieldContext (doc : Doc) (userMessage : List Char) : List Char :=
  let mentionedFields :=
    ((getPageFormFields doc).filter fun f =>
      containsWordCI userMessage f.id || containsWordCI userMessage f.name).map (·.id)
  if checkingTest userMessage ∧ mentionedFields ≠ [] then
    userMessage ++ "\n\n[Auto-fetched field values for context:".data ++
      (mentionedFields.foldl (fun acc fid =>
        match readFormField doc fid with
        | some v =>
          if v ≠ [] then acc ++ "\n- ".data ++ fid ++ ": \"".data ++ clip200 v ++ "\"".data
          else acc
        | none => acc) []) ++ "]".data
  else userMessage

/-! ## Conversation state and persistence (lines 14–24, 63–118) -/

inductive Role where
  | user : Role
  | assistant : Role
  | system : Role
deriving DecidableEq

structure ChatMessage where
  role : Role
  content : List Char
deriving DecidableEq

structure ChatState where
  messages : List ChatMessage
  isLoading : Bool
  error : Option (List Char)
  isOpen : Bool
deriving DecidableEq

/-- The persisted record `{ messages, timestamp }` (timestamps are epoch
milliseconds; `Int`, as JavaScript subtraction of numbers can go
negative). -/
structure StoredRecord where
  messages : List ChatMessage
  timestamp : Int
deriving DecidableEq

def eightHours : Int := 8 * 60 * 60 * 1000

def emptyChatState : ChatState :=
  { messages := [], isLoading := false, error := none, isOpen := false }

/-- `loadStateFromStorage` (lines 63–101): returns the hydrated state and
the store afterwards (`localStorage.removeItem` on expiry).  A record
that fails to parse is outside the typed store model (the catch path
returns the empty state without clearing). -/
def loadStateFromStorage (stored : Option StoredRecord) (now : Int) :
    ChatState × Option StoredRecord :=
  match stored with
  | some r =>
    if now - r.timestamp > eightHours then (emptyChatState, none)
    else ({ messages := r.messages, isLoading := false, error := none, isOpen := false },
          some r)
  | none => (emptyChatState, none)

/-- `saveStateToStorage` (lines 106–118): overwrite the record with the
current messages and `Date.now()` (quota failures are logged and
swallowed; the store model keeps the success path). -/
def saveStateToStorage (messages : List ChatMessage) (now : Int) : Option StoredRecord :=
  some { messages := messages, timestamp := now }

/-! ## Stream finalisation and the turn pipeline
(`streamChatResponse` lines 1336–1357, `handleSend` lines 1181–1215) -/

def joinComma : List (List Char) → List Char
  | [] => []
  | [x] => x
  | x :: xs => x ++ ", ".data ++ joinComma xs

/-- The synthesized completion summary (line 1347). -/
def summaryFor (successWrites : List FieldWrite) : List Char :=
  "✓ **Request completed!** I\x27ve successfully filled in the following fields: ".data
    ++ joinComma (successWrites.map (·.field)) ++ ".".data

/-- Lines 1342–1349: replace a minimal stripped display text by the
summary when at least one write succeeded. -/
def finalizeDisplay (writes : List FieldWrite) (displayContent : List Char) : List Char :=
  if writes.length > 0 ∧ (trimJS displayContent).length < 50 then
    if (writes.filter (·.success)).length > 0 then
      summaryFor (writes.filter (·.success))
    else displayContent
  else displayContent

/-- How one `fetch`/stream interaction resolves, as observed by
`streamChatResponse`:
* `failBeforeBody` — the `fetch` rejects, `response.ok` is false, or
  every step up to the placeholder creation throws (lines 1273–1281): the
  assistant placeholder was never pushed;
* `failMidStream` — the reader was obtained and delivered `chunks`
  before `reader.read()` (or the missing-reader check, line 1303) threw:
  the placeholder holds the accumulated partial content;
* `complete` — the transport ended normally after delivering `chunks`. -/
inductive StreamOutcome where
  | failBeforeBody (msg : List Char) : StreamOutcome
  | failMidStream (chunks : List (List Char)) (msg : List Char) : StreamOutcome
  | complete (chunks : List (List Char)) : StreamOutcome

/-- `streamChatResponse` effect on `(messages, doc, store)`, returning
also the error it throws (`none` on success).  On the failure paths only
the DOM loading indicator is removed (line 1360): the pushed placeholder
message, the document and the store are left as they are. -/
def streamChatResponse (messages : List ChatMessage) (doc : Doc)
    (store : Option StoredRecord) (outcome : StreamOutcome) (now : Int) :
    List ChatMessage × Doc × Option StoredRecord × Option (List Char) :=
  match outcome with
  | .failBeforeBody msg => (messages, doc, store, some msg)
  | .failMidStream chunks msg =>
    (messages ++ [{ role := .assistant, content := runStream chunks }], doc, store, some msg)
  | .complete chunks =>
    let acc := runStream chunks
    let pw := processFieldCommands doc acc
    let displayContent := finalizeDisplay pw.1 (removeFieldCommands acc)
    let messages' := messages ++ [{ role := .assistant, content := displayContent }]
    (messages', pw.2, saveStateToStorage messages' now, none)

/-- `handleSend`: the complete turn.  Returns the new widget state, the
store, the document, and whether a network request was initiated.
`this.inputField`/`this.sendButton` exist once the widget is constructed
(line 1182), so only the guard of line 1185 is modelled. -/
def handleSend (st : ChatState) (store : Option StoredRecord) (doc : Doc)
    (input : List Char) (outcome : StreamOutcome) (now : Int) :
    ChatState × Option StoredRecord × Doc × Bool :=
  let content := trimJS input
  if content = [] ∨ st.isLoading then (st, store, doc, false)
  else
    let processedContent := injectFieldContext doc (processFieldReads doc content)
    let messages1 := st.messages ++ [{ role := .user, content := processedContent }]
    let store1 := saveStateToStorage messages1 now
    let res := streamChatResponse messages1 doc store1 outcome now
    ({ messages := res.1, isLoading := false, error := res.2.2.2, isOpen := st.isOpen },
     res.2.2.1, res.2.1, true)

/-! ## Persistence claims -/

/-- C4: for every persisted record whose recorded timestamp is more than
8 hours before the current time, `loadStateFromStorage` returns the empty
message state and removes the stale record from the store. -/
theorem c4_expiry (msgs : List ChatMessage) (ts now : Int)
    (h : now - ts > eightHours) :
    loadStateFromStorage (some { messages := msgs, timestamp := ts }) now
      = (emptyChatState, none) := by
  simp [loadStateFromStorage, h]

theorem c4_expiry_witness :
    ((eightHours + 1) - 0 > eightHours) ∧
      loadStateFromStorage
          (some { messages := [{ role := .user, content := "m".data }], timestamp := 0 })
          (eightHours + 1)
        = (emptyChatState, none) :=
  ⟨by decide, c4_expiry _ 0 (eightHours + 1) (by decide)⟩

/-- C5: persisting a message list and loading it while the record is at
most 8 hours old hydrates the identical message sequence, with
`isLoading`, `error` and the open state reset rather than hydrated, and
leaves the record in place. -/
theorem c5_roundtrip (msgs : List ChatMessage) (saveTime loadTime : Int)
    (h : loadTime - saveTime ≤ eightHours) :
    loadStateFromStorage (saveStateToStorage msgs saveTime) loadTime
      = ({ messages := msgs, isLoading := false, error := none, isOpen := false },
         some { messages := msgs, timestamp := saveTime }) := by
  simp [loadStateFromStorage, saveStateToStorage, not_lt.mpr h]

theorem c5_roundtrip_witness :
    ((10 : Int) + eightHours - 10 ≤ eightHours) ∧
      loadStateFromStorage
          (saveStateToStorage [{ role := .user, content := "m".data }] 10)
          (10 + eightHours)
        = ({ messages := [{ role := .user, content := "m".data }],
             isLoading := false, error := none, isOpen := false },
           some { messages := [{ role := .user, content := "m".data }], timestamp := 10 }) :=
  ⟨by decide, c5_roundtrip _ 10 (10 + eightHours) (by decide)⟩

/-! ## Concurrency / input guard -/

/-- C8: while `isLoading` is true, and likewise for an empty or
whitespace-only input, `handleSend` is a no-op: state, store and document
are unchanged and no network request is initiated. -/
theorem c8_sendGuard (st : ChatState) (store : Option StoredRecord) (doc : Doc)
    (input : List Char) (outcome : StreamOutcome) (now : Int)
    (h : trimJS input = [] ∨ st.isLoading = true) :
    handleSend st store doc input outcome now = (st, store, doc, false) := by
  unfold handleSend
  rcases h with h | h
  · simp [h]
  · simp [h]

theorem c8_sendGuard_witness :
    (trimJS "   ".data = [] ∨
        (({ messages := [], isLoading := false, error := none, isOpen := false } : ChatState)).isLoading = true) ∧
      (handleSend { messages := [], isLoading := false, error := none, isOpen := false }
          none [] "   ".data (.complete []) 0
        = ({ messages := [], isLoading := false, error := none, isOpen := false }, none, [], false)) ∧
      (handleSend { messages := [{ role := .user, content := "a".data }],
                    isLoading := true, error := none, isOpen := false }
          (some { messages := [], timestamp := 3 }) [] "hello".data (.complete []) 0
        = ({ messages := [{ role := .user, content := "a".data }],
             isLoading := true, error := none, isOpen := false },
           some { messages := [], timestamp := 3 }, [], false)) :=
  ⟨Or.inl (by decide),
   c8_sendGuard _ _ _ _ _ _ (Or.inl (by decide)),
   c8_sendGuard _ _ _ _ _ _ (Or.inr (by decide))⟩

/-! ## Fallback summary -/

/-- C7: when at least one write directive was parsed, at least one write
succeeded, and the stripped display text's trimmed length is below 50,
the display content is replaced by the synthesized confirmation naming
exactly the successfully written fields. -/
theorem c7_fallbackSummary (writes : List FieldWrite) (displayContent : List Char)
    (h1 : writes ≠ []) (h2 : (trimJS displayContent).length < 50)
    (h3 : writes.filter (·.success) ≠ []) :
    finalizeDisplay writes displayContent = summaryFor (writes.filter (·.success)) := by
  unfold finalizeDisplay
  rw [if_pos ⟨List.length_pos.mpr h1, h2⟩, if_pos (List.length_pos.mpr h3)]

theorem c7_fallbackSummary_witness :
    ([({ field := "title".data, content := "T".data, success := true } : FieldWrite)] ≠ [] ∧
      (trimJS "Thanks ok.".data).length < 50 ∧
      [({ field := "title".data, content := "T".data, success := true } : FieldWrite)].filter (·.success) ≠ []) ∧
    (trimJS "Thanks ok.".data).length = 10 ∧
    finalizeDisplay [{ field := "title".data, content := "T".data, success := true }] "Thanks ok.".data
      = summaryFor [{ field := "title".data, content := "T".data, success := true }] :=
  ⟨⟨by decide, by decide, by decide⟩, by decide, by
    have := c7_fallbackSummary
      [{ field := "title".data, content := "T".data, success := true }] "Thanks ok.".data
      (by decide) (by decide) (by decide)
    simpa using this⟩

/-! ## Field accessor asymmetry -/

theorem find?_append_of_none {p : FormElement → Bool} :
    ∀ {xs : Doc}, (∀ x ∈ xs, p x = false) → ∀ (l : Doc),
    (xs ++ l).find? p = l.find? p := by
  intro xs
  induction xs with
  | nil => intro _ l; rfl
  | cons x xs ih =>
    intro h l
    have hx : p x = false := h x (List.mem_cons_self x xs)
    have hxs : ∀ y ∈ xs, p y = false := fun y hy => h y (List.mem_cons_of_mem x hy)
    simp [List.find?, hx, ih hxs l]

theorem updateFirst_append_of_none {p : FormElement → Bool} {content : List Char} :
    ∀ {xs : Doc}, (∀ x ∈ xs, p x = false) → ∀ (l : Doc),
    updateFirst p content (xs ++ l) = (updateFirst p content l).map (xs ++ ·) := by
  intro xs
  induction xs with
  | nil =>
    intro _ l
    simp [Option.map_id']
  | cons x xs ih =>
    intro h l
    have hx : p x = false := h x (List.mem_cons_self x xs)
    have hxs : ∀ y ∈ xs, p y = false := fun y hy => h y (List.mem_cons_of_mem x hy)
    simp [updateFirst, hx, ih hxs l, Function.comp]
    cases updateFirst p content l <;> rfl

/-- C9: the listing excludes every password/hidden input and every
element without a non-empty id or name (removing such an element never
changes `getPageFormFields`), yet `readFormField`/`writeFormField`
addressed by exact id perform no type check: for a password or hidden
input that is the id-match, read returns its value and write sets it and
reports success. -/
theorem c9_sensitiveAsymmetry :
    (∀ (xs ys : Doc) (e : FormElement),
      e.tag = .input → (e.ty = "password".data ∨ e.ty = "hidden".data) →
      getPageFormFields (xs ++ e :: ys) = getPageFormFields (xs ++ ys)) ∧
    (∀ (xs ys : Doc) (e : FormElement),
      e.id = [] → e.name = [] →
      getPageFormFields (xs ++ e :: ys) = getPageFormFields (xs ++ ys)) ∧
    (∀ (xs ys : Doc) (e : FormElement) (fid content : List Char),
      fid ≠ [] → e.id = fid → (∀ x ∈ xs, x.id ≠ fid) →
      readFormField (xs ++ e :: ys) fid = some e.value ∧
      writeFormField (xs ++ e :: ys) fid content
        = (xs ++ { e with value := content } :: ys, true)) := by
  refine ⟨?_, ?_, ?_⟩
  · intro xs ys e htag hty
    have hdesc : descOf e = none := by
      unfold descOf
      rw [if_pos ⟨htag, hty⟩]
    unfold getPageFormFields
    simp [List.filterMap_append, List.filterMap_cons, hdesc]
  · intro xs ys e hid hname
    have hdesc : descOf e = none := by
      unfold descOf
      simp [hid, hname]
    unfold getPageFormFields
    simp [List.filterMap_append, List.filterMap_cons, hdesc]
  · intro xs ys e fid content hfid hid hxs
    have hxs' : ∀ x ∈ xs, (x.id == fid) = false := by
      intro x hx
      simpa using hxs x hx
    have he : (e.id == fid) = true := by simpa using hid
    constructor
    · unfold readFormField lookupField
      rw [if_neg hfid, find?_append_of_none hxs']
      simp [List.find?, he]
    · unfold writeFormField
      rw [if_neg hfid, updateFirst_append_of_none hxs']
      simp [updateFirst, he]

theorem c9_sensitiveAsymmetry_witness :
    (getPageFormFields
        ([] ++ ({ tag := .input, id := "pwd".data, name := "pwd".data,
                  ty := "password".data, value := "secret".data } : FormElement) :: [])
      = getPageFormFields ([] ++ [])) ∧
    (readFormField
        ([] ++ ({ tag := .input, id := "pwd".data, name := "pwd".data,
                  ty := "password".data, value := "secret".data } : FormElement) :: [])
        "pwd".data
      = some "secret".data) ∧
    (writeFormField
        ([] ++ ({ tag := .input, id := "pwd".data, name := "pwd".data,
                  ty := "password".data, value := "secret".data } : FormElement) :: [])
        "pwd".data "x".data
      = ([] ++ ({ tag := .input, id := "pwd".data, name := "pwd".data,
                  ty := "password".data, value := "x".data } : FormElement) :: [], true)) := by
  refine ⟨?_, ?_, ?_⟩
  · exact c9_sensitiveAsymmetry.1 [] []
      { tag := .input, id := "pwd".data, name := "pwd".data,
        ty := "password".data, value := "secret".data }
      rfl (Or.inl rfl)
  · exact (c9_sensitiveAsymmetry.2.2 [] []
      { tag := .input, id := "pwd".data, name := "pwd".data,
        ty := "password".data, value := "secret".data }
      "pwd".data "x".data (by decide) rfl (by simp)).1
  · exact (c9_sensitiveAsymmetry.2.2 [] []
      { tag := .input, id := "pwd".data, name := "pwd".data,
        ty := "password".data, value := "secret".data }
      "pwd".data "x".data (by decide) rfl (by simp)).2

/-! ## Multi-write parsing -/

theorem applyWrites_pairs : ∀ (l : List (List Char × List Char)) (doc : Doc),
    (applyWrites doc l).1.map (fun w => (w.field, w.content)) = l := by
  intro l
  induction l with
  | nil => intro doc; rfl
  | cons p rest ih =>
    intro doc
    obtain ⟨f, c⟩ := p
    simp [applyWrites, ih]

/-- C6: the multi-write input parses to the ordered extraction
`[(x, "1"), (y, "2")]` — both as the raw extraction and through
`processFieldCommands` against any document — and stripping the same
input yields `"A  B  C"`. -/
theorem c6_multiWrite :
    extractWrites "A [WRITE_FIELD:x]1[/WRITE_FIELD] B [WRITE_FIELD:y]2[/WRITE_FIELD] C".data
        = [("x".data, "1".data), ("y".data, "2".data)] ∧
    (∀ doc : Doc,
      (processFieldCommands doc
          "A [WRITE_FIELD:x]1[/WRITE_FIELD] B [WRITE_FIELD:y]2[/WRITE_FIELD] C".data).1.map
          (fun w => (w.field, w.content))
        = [("x".data, "1".data), ("y".data, "2".data)]) ∧
    removeFieldCommands "A [WRITE_FIELD:x]1[/WRITE_FIELD] B [WRITE_FIELD:y]2[/WRITE_FIELD] C".data
        = "A  B  C".data := by
  refine ⟨by decide, ?_, by decide⟩
  intro doc
  unfold processFieldCommands
  rw [applyWrites_pairs]
  decide

/-! ## Stream-consumer claims

The read loop splits each decoded chunk on newlines by itself; there is
no rolling buffer carrying a partial line into the next read. -/

theorem splitOnNl_ne_nil : ∀ (s : List Char), splitOnNl s ≠ [] := by
  intro s
  induction s with
  | nil => simp [splitOnNl]
  | cons c cs ih =>
    by_cases hc : c = '\n'
    · simp [splitOnNl, hc]
    · simp only [splitOnNl, if_neg hc]
      cases splitOnNl cs with
      | nil => simp
      | cons l ls => simp

/-- `split('\n')` distributes over a newline junction. -/
theorem splitOnNl_append_nl : ∀ (a b : List Char),
    splitOnNl (a ++ '\n' :: b) = splitOnNl a ++ splitOnNl b := by
  intro a
  induction a with
  | nil => intro b; simp [splitOnNl]
  | cons c cs ih =>
    intro b
    by_cases hc : c = '\n'
    · simp [splitOnNl, hc, ih b]
    · cases hcs : splitOnNl cs with
      | nil => exact absurd hcs (splitOnNl_ne_nil cs)
      | cons l ls =>
        simp only [List.cons_append, splitOnNl, if_neg hc]
        rw [show cs.append ('\n' :: b) = cs ++ '\n' :: b from rfl, ih b, hcs]
        rfl

/-- Processing a chunk's lines crosses a junction freely as long as no
`data: [DONE]` line stops it. -/
theorem processLines_append : ∀ (ls ms : List (List Char)) (acc : List Char),
    doneLine ∉ ls →
    processLines (ls ++ ms) acc = processLines ms (processLines ls acc) := by
  intro ls
  induction ls with
  | nil => intro ms acc _; rfl
  | cons l ls ih =>
    intro ms acc h
    have hl : l ≠ doneLine := fun he => h (he ▸ List.mem_cons_self l ls)
    have hls : doneLine ∉ ls := fun hm => h (List.mem_cons_of_mem l hm)
    cases hal : afterLit dataPre l with
    | none =>
      simp only [List.cons_append, processLines, hal]
      exact ih ms acc hls
    | some d =>
      have hd : d ≠ doneLit := by
        intro he
        exact hl (by rw [afterLit_eq hal, he]; rfl)
      simp only [List.cons_append, processLines, hal, if_neg hd]
      exact ih ms _ hls

/-- An empty line is not `data: `-prefixed and is skipped. -/
theorem processLines_empty_line (acc : List Char) : processLines [[]] acc = acc := rfl

/-- When every chunk boundary falls on a line boundary and no chunk
carries a `data: [DONE]` line, the reader loop accumulates exactly what
it would accumulate on the unsplit text. -/
theorem foldl_processChunk_aligned : ∀ (chunks : List (List Char)) (acc : List Char),
    (∀ c ∈ chunks, c.getLast? = some '\n') →
    (∀ c ∈ chunks, doneLine ∉ splitOnNl c) →
    chunks.foldl processChunk acc = processLines (splitOnNl chunks.flatten) acc := by
  intro chunks
  induction chunks with
  | nil => intro acc _ _; rfl
  | cons c cs ih =>
    intro acc h1 h2
    have hc1 : c.getLast? = some '\n' := h1 c (List.mem_cons_self c cs)
    have hc2 : doneLine ∉ splitOnNl c := h2 c (List.mem_cons_self c cs)
    have hcs1 : ∀ x ∈ cs, x.getLast? = some '\n' := fun x hx => h1 x (List.mem_cons_of_mem c hx)
    have hcs2 : ∀ x ∈ cs, doneLine ∉ splitOnNl x := fun x hx => h2 x (List.mem_cons_of_mem c hx)
    have hne : c ≠ [] := by intro he; rw [he] at hc1; simp at hc1
    have hsplit : c = c.dropLast ++ ['\n'] := by
      conv_lhs => rw [← List.dropLast_append_getLast hne]
      rw [List.getLast_eq_iff_getLast?_eq_some hne |>.mpr hc1]
    have hmem : doneLine ∉ splitOnNl c.dropLast := by
      intro hm
      apply hc2
      rw [hsplit, show (['\n'] : List Char) = '\n' :: [] from rfl, splitOnNl_append_nl]
      exact List.mem_append_left _ hm
    have hchunk : processChunk acc c = processLines (splitOnNl c.dropLast) acc := by
      unfold processChunk
      conv_lhs => rw [hsplit, show (['\n'] : List Char) = '\n' :: [] from rfl,
        splitOnNl_append_nl]
      rw [processLines_append _ _ _ hmem]
      rfl
    calc (c :: cs).foldl processChunk acc
        = cs.foldl processChunk (processChunk acc c) := rfl
      _ = processLines (splitOnNl cs.flatten) (processChunk acc c) := ih _ hcs1 hcs2
      _ = processLines (splitOnNl cs.flatten) (processLines (splitOnNl c.dropLast) acc) := by
            rw [hchunk]
      _ = processLines (splitOnNl c.dropLast ++ splitOnNl cs.flatten) acc := by
            rw [processLines_append _ _ _ hmem]
      _ = processLines (splitOnNl ((c :: cs).flatten)) acc := by
            rw [List.flatten_cons, show c ++ cs.flatten = c.dropLast ++ '\n' :: cs.flatten by
              conv_lhs => rw [hsplit]
              simp, splitOnNl_append_nl]

/-- C1 counterexample: the frame `data: {"content": "Hello"}` split
mid-object across two reads appends nothing, while the same bytes in one
read append `"Hello"` — the accumulated content is not independent of the
chunking, and the split delta is never recovered. -/
theorem c1_counterexample :
    runStream ["data: \x7b\"conte".data, "nt\": \"Hello\"\x7d\n".data] = [] ∧
      runStream [("data: \x7b\"conte".data ++ "nt\": \"Hello\"\x7d\n".data)] = "Hello".data := by
  constructor
  · decide
  · decide

/-- C1 amended: the malformed line raises no error (the catch swallows
it, and the loop is total), but the delta is only accumulated when the
`data:` line is contained in one read: accumulation agrees with the
unsplit stream exactly when every chunk boundary falls on a line
boundary (and no `[DONE]` line intervenes, see C2). -/
theorem c1_alignedResilience (chunks : List (List Char))
    (h1 : ∀ c ∈ chunks, c.getLast? = some '\n')
    (h2 : ∀ c ∈ chunks, doneLine ∉ splitOnNl c) :
    runStream chunks = runStream [chunks.flatten] := by
  unfold runStream
  rw [foldl_processChunk_aligned chunks [] h1 h2]
  rfl

theorem c1_alignedResilience_witness :
    (∀ c ∈ ["data: \x7b\"content\": \"He\"\x7d\n".data,
            "data: \x7b\"content\": \"llo\"\x7d\n".data], c.getLast? = some '\n') ∧
    (∀ c ∈ ["data: \x7b\"content\": \"He\"\x7d\n".data,
            "data: \x7b\"content\": \"llo\"\x7d\n".data], doneLine ∉ splitOnNl c) ∧
    runStream ["data: \x7b\"content\": \"He\"\x7d\n".data,
               "data: \x7b\"content\": \"llo\"\x7d\n".data]
      = runStream [(["data: \x7b\"content\": \"He\"\x7d\n".data,
                     "data: \x7b\"content\": \"llo\"\x7d\n".data] : List (List Char)).flatten] :=
  ⟨by decide, by decide,
   c1_alignedResilience _ (by decide) (by decide)⟩

/-- C2 counterexample: after a `data: [DONE]` line is consumed, a content
delta arriving in a *subsequent* chunk is still appended (the `break`
leaves only the inner loop over the current chunk's lines). -/
theorem c2_counterexample :
    runStream ["data: [DONE]\n".data, "data: \x7b\"content\": \"x\"\x7d\n".data] = "x".data ∧
      runStream ["data: [DONE]\n".data] = [] := by
  constructor
  · decide
  · decide

/-- C2 amended: a `data: [DONE]` line stops the processing of the
remaining lines of its own chunk, but the outer read loop continues and
subsequent chunks are processed as if the `[DONE]` had not occurred. -/
theorem c2_doneScope :
    (∀ (ls : List (List Char)) (acc : List Char), processLines (doneLine :: ls) acc = acc) ∧
    (∀ rest : List (List Char), runStream ("data: [DONE]\n".data :: rest) = runStream rest) := by
  constructor
  · intro ls acc; rfl
  · intro rest; rfl

/-! ## Error path of a turn -/

/-- C3 counterexample: after a mid-stream network failure the partially
built assistant message (here `"Hel"`) is *not* discarded — it remains in
the visible message log next to the user's message (only the loading
indicator is removed on the error path). -/
theorem c3_counterexample :
    (handleSend { messages := [], isLoading := false, error := none, isOpen := false }
        none [] "hi".data
        (.failMidStream ["data: \x7b\"content\": \"Hel\"\x7d\n".data] "network error".data) 0).1
      = { messages := [{ role := .user, content := "hi".data },
                       { role := .assistant, content := "Hel".data }],
          isLoading := false, error := some "network error".data, isOpen := false } := by
  decide

/-- C3 amended: on any failure before `[DONE]` the widget clears
`isLoading`, surfaces the error, keeps the store at the state saved with
the user message, and makes no retry (the turn resolves in one pass);
but only a failure *before the placeholder is pushed* leaves the log
without an assistant message — a mid-stream failure leaves the partially
accumulated assistant message in the log. -/
theorem c3_errorPath (st : ChatState) (store : Option StoredRecord) (doc : Doc)
    (input msg : List Char) (chunks : List (List Char)) (now : Int)
    (h1 : trimJS input ≠ []) (h2 : st.isLoading = false) :
    (handleSend st store doc input (.failBeforeBody msg) now
      = ({ messages := st.messages ++
             [{ role := .user,
                content := injectFieldContext doc (processFieldReads doc (trimJS input)) }],
           isLoading := false, error := some msg, isOpen := st.isOpen },
         saveStateToStorage
           (st.messages ++
             [{ role := .user,
                content := injectFieldContext doc (processFieldReads doc (trimJS input)) }]) now,
         doc, true)) ∧
    (handleSend st store doc input (.failMidStream chunks msg) now
      = ({ messages := st.messages ++
             [{ role := .user,
                content := injectFieldContext doc (processFieldReads doc (trimJS input)) },
              { role := .assistant, content := runStream chunks }],
           isLoading := false, error := some msg, isOpen := st.isOpen },
         saveStateToStorage
           (st.messages ++
             [{ role := .user,
                content := injectFieldContext doc (processFieldReads doc (trimJS input)) }]) now,
         doc, true)) := by
  constructor
  · unfold handleSend
    rw [if_neg (by simp [h1, h2])]
    rfl
  · unfold handleSend
    rw [if_neg (by simp [h1, h2])]
    simp [streamChatResponse]

theorem c3_errorPath_witness :
    (trimJS "hi".data ≠ [] ∧
      ({ messages := [], isLoading := false, error := none, isOpen := false } : ChatState).isLoading = false) ∧
    (handleSend { messages := [], isLoading := false, error := none, isOpen := false }
        none [] "hi".data (.failBeforeBody "HTTP error! status: 500".data) 0
      = ({ messages := [{ role := .user, content := "hi".data }],
           isLoading := false, error := some "HTTP error! status: 500".data, isOpen := false },
         some { messages := [{ role := .user, content := "hi".data }], timestamp := 0 },
         [], true)) := by
  refine ⟨⟨by decide, rfl⟩, ?_⟩
  have h := (c3_errorPath { messages := [], isLoading := false, error := none, isOpen := false }
    none [] "hi".data "HTTP error! status: 500".data [] 0 (by decide) rfl).1
  rw [h]
  decide

/-! ## Unmatched open tags (C10)

The write-directive regex needs a `[/WRITE_FIELD]` after the open tag.
The lemmas below show that appending `[WRITE_FIELD:` ++ `b`, where `b`
offers no close tag, to any text changes neither the extraction nor the
stripped prefix — the appended tail survives verbatim.  The key technical
points are that neither tag can straddle the junction (every proper
suffix of either tag starts with a character other than `[`, while the
appended part starts with `[`). -/

theorem containsSub_false_iff {pat s : List Char} :
    containsSub pat s = false ↔ splitFirst pat s = none := by
  unfold containsSub
  cases splitFirst pat s <;> simp

theorem afterLit_append_some : ∀ {p u r : List Char} (v : List Char),
    afterLit p u = some r → afterLit p (u ++ v) = some (r ++ v) := by
  intro p
  induction p with
  | nil =>
    intro u r v h
    have : u = r := by simpa [afterLit] using h
    subst this
    rfl
  | cons x ps ih =>
    intro u r v h
    cases u with
    | nil => simp [afterLit] at h
    | cons c us =>
      by_cases hxc : x = c
      · subst hxc
        simp only [afterLit, if_pos rfl] at h
        simpa only [List.cons_append, afterLit, if_pos rfl] using ih v h
      · simp [afterLit, hxc] at h

theorem afterLit_straddle : ∀ {p u v r : List Char},
    afterLit p u = none → afterLit p (u ++ v) = some r →
    u.length < p.length ∧ afterLit (p.drop u.length) v = some r := by
  intro p
  induction p with
  | nil => intro u v r h1 _; simp [afterLit] at h1
  | cons x ps ih =>
    intro u v r h1 h2
    cases u with
    | nil => exact ⟨by simp, by simpa using h2⟩
    | cons c us =>
      by_cases hxc : x = c
      · subst hxc
        simp only [afterLit, if_pos rfl] at h1
        simp only [List.cons_append, afterLit, if_pos rfl] at h2
        obtain ⟨hl, ha⟩ := ih h1 h2
        exact ⟨by simpa using Nat.succ_lt_succ hl, by simpa using ha⟩
      · simp [List.cons_append, afterLit, hxc] at h2

/-- Every proper suffix of the close tag starts with a character other
than `[`. -/
theorem closeL_drop_fact :
    ∀ k, k < closeL.length → 1 ≤ k → (closeL.drop k).head? ≠ some '[' := by decide

/-- Every proper suffix of the open tag starts with a character other
than `[`. -/
theorem openL_drop_fact :
    ∀ k, k < openL.length → 1 ≤ k → (openL.drop k).head? ≠ some '[' := by decide

/-- A failed literal match cannot be completed across a junction whose
right side starts with `[` (for the two directive tags). -/
theorem afterLit_append_none {p u b : List Char}
    (hp : ∀ k, k < p.length → 1 ≤ k → (p.drop k).head? ≠ some '[')
    (hu : afterLit p u = none) (hune : u ≠ []) :
    afterLit p (u ++ (openL ++ b)) = none := by
  cases hal : afterLit p (u ++ (openL ++ b)) with
  | none => rfl
  | some r =>
    obtain ⟨hlen, ha⟩ := afterLit_straddle hu hal
    have h1 : 1 ≤ u.length := by
      cases u with
      | nil => exact absurd rfl hune
      | cons _ _ => simp
    cases hd : p.drop u.length with
    | nil =>
      rw [hd] at ha
      have : openL ++ b = [] ++ r := afterLit_eq ha
      have : (openL ++ b) = r := by simpa using this
      have hop : openL.length ≤ (openL ++ b).length := by simp
      have := List.drop_eq_nil_iff.mp hd
      omega
    | cons d ds =>
      rw [hd] at ha
      have heq : openL ++ b = (d :: ds) ++ r := afterLit_eq ha
      have hdchar : d = '[' := by
        have : (openL ++ b).head? = some '[' := by rw [show openL = '[' :: "WRITE_FIELD:".data from rfl]; rfl
        rw [heq] at this
        simpa using this
      have := hp u.length hlen h1
      rw [hd, hdchar] at this
      simp at this

theorem containsSub_append_left (pat : List Char) : ∀ (u v : List Char),
    containsSub pat v = true → containsSub pat (u ++ v) = true := by
  intro u
  induction u with
  | nil => intro v h; exact h
  | cons c us ih =>
    intro v h
    have hv := ih v h
    unfold containsSub at hv ⊢
    rw [show (c :: us) ++ v = c :: (us ++ v) from rfl]
    unfold splitFirst
    cases hal : afterLit pat (c :: (us ++ v)) with
    | some r => simp
    | none =>
      cases hsf : splitFirst pat (us ++ v) with
      | none => rw [hsf] at hv; simp at hv
      | some pr => simp [hsf]

/-- First-occurrence search extends over a close-free `[`-headed tail. -/
theorem splitFirst_append_closefree {b : List Char}
    (hX : containsSub closeL (openL ++ b) = false) :
    ∀ (w : List Char),
    splitFirst closeL (w ++ (openL ++ b))
      = (splitFirst closeL w).map fun pr => (pr.1, pr.2 ++ (openL ++ b)) := by
  have hXnone : splitFirst closeL (openL ++ b) = none := containsSub_false_iff.mp hX
  intro w
  induction w with
  | nil =>
    simpa [splitFirst, afterLit] using hXnone
  | cons c ws ih =>
    cases hal : afterLit closeL (c :: ws) with
    | some r =>
      have hal' : afterLit closeL ((c :: ws) ++ (openL ++ b)) = some (r ++ (openL ++ b)) :=
        afterLit_append_some _ hal
      rw [show (c :: ws) ++ (openL ++ b) = c :: (ws ++ (openL ++ b)) from rfl]
      unfold splitFirst
      rw [show c :: (ws ++ (openL ++ b)) = (c :: ws) ++ (openL ++ b) from rfl, hal', hal]
      rfl
    | none =>
      have hal' : afterLit closeL ((c :: ws) ++ (openL ++ b)) = none :=
        afterLit_append_none closeL_drop_fact hal (by simp)
      rw [show (c :: ws) ++ (openL ++ b) = c :: (ws ++ (openL ++ b)) from rfl]
      unfold splitFirst
      rw [show c :: (ws ++ (openL ++ b)) = (c :: ws) ++ (openL ++ b) from rfl, hal', hal, ih]
      cases splitFirst closeL ws <;> rfl

/-- `takeWhile`/`dropWhile` over an append when the left part is consumed
entirely. -/
theorem while_append_of_dropWhile_nil {p : Char → Bool} :
    ∀ {l₁ : List Char}, l₁.dropWhile p = [] → ∀ (l₂ : List Char),
    (l₁ ++ l₂).takeWhile p = l₁ ++ l₂.takeWhile p ∧
      (l₁ ++ l₂).dropWhile p = l₂.dropWhile p := by
  intro l₁
  induction l₁ with
  | nil => intro _ l₂; exact ⟨rfl, rfl⟩
  | cons x xs ih =>
    intro h l₂
    rw [List.dropWhile_cons] at h
    by_cases hx : p x
    · rw [if_pos hx] at h
      obtain ⟨ht, hd⟩ := ih h l₂
      constructor
      · rw [List.cons_append, List.takeWhile_cons, if_pos hx, ht]; rfl
      · rw [List.cons_append, List.dropWhile_cons, if_pos hx, hd]
    · rw [if_neg hx] at h
      exact absurd h (by simp)

/-- `takeWhile`/`dropWhile` over an append when the left part already
contains a failing element. -/
theorem while_append_of_dropWhile_cons {p : Char → Bool} :
    ∀ {l₁ : List Char} {x : Char} {r : List Char}, l₁.dropWhile p = x :: r →
    ∀ (l₂ : List Char),
    (l₁ ++ l₂).takeWhile p = l₁.takeWhile p ∧
      (l₁ ++ l₂).dropWhile p = x :: (r ++ l₂) := by
  intro l₁
  induction l₁ with
  | nil => intro x r h; simp at h
  | cons y ys ih =>
    intro x r h l₂
    rw [List.dropWhile_cons] at h
    by_cases hy : p y
    · rw [if_pos hy] at h
      obtain ⟨ht, hd⟩ := ih h l₂
      constructor
      · rw [List.cons_append, List.takeWhile_cons, if_pos hy, ht,
          List.takeWhile_cons, if_pos hy]
      · rw [List.cons_append, List.dropWhile_cons, if_pos hy, hd]
    · rw [if_neg hy] at h
      obtain ⟨hyx, hysr⟩ : y = x ∧ ys = r := by simpa using h
      subst hyx hysr
      constructor
      · rw [List.cons_append, List.takeWhile_cons, if_neg hy, List.takeWhile_cons, if_neg hy]
      · rw [List.cons_append, List.dropWhile_cons, if_neg hy]

theorem openL_dropWhile_fact : openL.dropWhile (fun c => c ≠ ']') = [] := by decide

theorem afterLit_self_append : ∀ (p r : List Char), afterLit p (p ++ r) = some r := by
  intro p
  induction p with
  | nil => intro r; rfl
  | cons x ps ih =>
    intro r
    simp only [List.cons_append, afterLit, if_pos rfl]
    exact ih r

theorem containsSub_self_append (p r : List Char) (hp : p ≠ []) :
    containsSub p (p ++ r) = true := by
  unfold containsSub
  cases p with
  | nil => exact absurd rfl hp
  | cons x ps =>
    show (splitFirst (x :: ps) ((x :: ps) ++ r)).isSome = true
    rw [show (x :: ps) ++ r = x :: (ps ++ r) from rfl]
    unfold splitFirst
    rw [show x :: (ps ++ r) = (x :: ps) ++ r from rfl, afterLit_self_append]
    rfl

/-- Evaluation of `tryMatchAt` once the open tag is known absent. -/
theorem tryMatchAt_of_afterLit_none {s : List Char}
    (hal : afterLit openL s = none) : tryMatchAt s = none := by
  unfold tryMatchAt
  rw [hal]

/-- Evaluation of `tryMatchAt` once the open tag is known present. -/
theorem tryMatchAt_of_afterLit {s r : List Char} (hal : afterLit openL s = some r) :
    tryMatchAt s =
      match r.dropWhile (fun c => c ≠ ']') with
      | [] => none
      | _ :: r2 =>
        if r.takeWhile (fun c => c ≠ ']') = [] then none
        else
          match splitFirst closeL r2 with
          | none => none
          | some (body, rest) => some (r.takeWhile (fun c => c ≠ ']'), body, rest) := by
  unfold tryMatchAt
  rw [hal]

/-- One regex attempt, extended by a close-free tail starting at the open
tag: the attempt succeeds with an extended remainder exactly when it
succeeded on the original text, and never succeeds anew. -/
theorem tryMatchAt_append {b : List Char}
    (hX : containsSub closeL (openL ++ b) = false) :
    ∀ (u : List Char), u ≠ [] →
    tryMatchAt (u ++ (openL ++ b))
      = (tryMatchAt u).map fun q => (q.1, q.2.1, q.2.2 ++ (openL ++ b)) := by
  intro u hune
  cases hal : afterLit openL u with
  | none =>
    rw [tryMatchAt_of_afterLit_none (afterLit_append_none openL_drop_fact hal hune),
      tryMatchAt_of_afterLit_none hal]
    rfl
  | some r =>
    rw [tryMatchAt_of_afterLit (afterLit_append_some (openL ++ b) hal),
      tryMatchAt_of_afterLit hal]
    cases hdw : r.dropWhile (fun c => c ≠ ']') with
    | nil =>
      obtain ⟨ht, hd⟩ := while_append_of_dropWhile_nil hdw (openL ++ b)
      rw [hd]
      obtain ⟨ht2, hd2⟩ := while_append_of_dropWhile_nil openL_dropWhile_fact b
      rw [hd2]
      cases hdb : b.dropWhile (fun c => c ≠ ']') with
      | nil => rfl
      | cons x b2 =>
        have hb2 : splitFirst closeL b2 = none := by
          cases hsf : splitFirst closeL b2 with
          | none => rfl
          | some pr =>
            have h1 : containsSub closeL b2 = true := by
              unfold containsSub; rw [hsf]; rfl
            have hb' : b = b.takeWhile (fun c => c ≠ ']') ++ x :: b2 := by
              conv_lhs => rw [← List.takeWhile_append_dropWhile (fun c => decide (c ≠ ']')) b]
              rw [hdb]
            have h2 : containsSub closeL (openL ++ b) = true := by
              have hmono := containsSub_append_left closeL
                (openL ++ b.takeWhile (fun c => c ≠ ']') ++ [x]) b2 h1
              rw [show (openL ++ b.takeWhile (fun c => c ≠ ']') ++ [x]) ++ b2
                  = openL ++ (b.takeWhile (fun c => c ≠ ']') ++ x :: b2) by simp] at hmono
              rw [← hb'] at hmono
              exact hmono
            rw [h2] at hX
            cases hX
        simp [hb2]
    | cons x r2 =>
      obtain ⟨ht, hd⟩ := while_append_of_dropWhile_cons hdw (openL ++ b)
      rw [hd, ht]
      generalize r.takeWhile (fun c => c ≠ ']') = tw
      by_cases hif : tw = []
      · simp [hif]
      · have hsp := splitFirst_append_closefree hX r2
        cases hsf : splitFirst closeL r2 with
        | none => rw [hsf] at hsp; simp [hif, hsp, hsf]
        | some pr => rw [hsf] at hsp; simp [hif, hsp, hsf]

/-- A close-tag-free text has no directive match at all. -/
theorem matchNext_none_of_closefree : ∀ {s : List Char},
    containsSub closeL s = false → matchNext s = none := by
  intro s
  induction s with
  | nil => intro _; rfl
  | cons c cs ih =>
    intro hs
    have hcs : containsSub closeL cs = false := by
      cases hcon : containsSub closeL cs with
      | false => rfl
      | true =>
        have hleft := containsSub_append_left closeL [c] cs hcon
        rw [show [c] ++ cs = c :: cs from rfl] at hleft
        rw [hleft] at hs
        cases hs
    have htm : tryMatchAt (c :: cs) = none := by
      cases htm : tryMatchAt (c :: cs) with
      | none => rfl
      | some q =>
        obtain ⟨id, body, rest⟩ := q
        have heq := tryMatchAt_eq htm
        have heq' : c :: cs = (openL ++ id ++ ']' :: body) ++ (closeL ++ rest) := by
          rw [heq]; simp
        have : containsSub closeL (c :: cs) = true := by
          rw [heq']
          exact containsSub_append_left closeL _ _
            (containsSub_self_append closeL rest (by decide))
        rw [this] at hs
        cases hs
    simp [matchNext, htm, ih hcs]

/-- The first directive match, extended by a close-free tail starting at
the open tag: the tail never creates or changes a match beyond extending
the final remainder. -/
theorem matchNext_append_closefree {b : List Char}
    (hX : containsSub closeL (openL ++ b) = false) :
    ∀ (a : List Char),
    matchNext (a ++ (openL ++ b))
      = (matchNext a).map fun q => (q.1, q.2.1, q.2.2.1, q.2.2.2 ++ (openL ++ b)) := by
  intro a
  induction a with
  | nil =>
    rw [show ([] : List Char) ++ (openL ++ b) = openL ++ b from rfl,
      matchNext_none_of_closefree hX]
    rfl
  | cons c cs ih =>
    rw [show (c :: cs) ++ (openL ++ b) = c :: (cs ++ (openL ++ b)) from rfl]
    unfold matchNext
    rw [show c :: (cs ++ (openL ++ b)) = (c :: cs) ++ (openL ++ b) from rfl,
      tryMatchAt_append hX (c :: cs) (by simp)]
    cases htm : tryMatchAt (c :: cs) with
    | some q => rfl
    | none =>
      rw [ih]
      cases matchNext cs <;> rfl

theorem c10_core {b : List Char} (hX : containsSub closeL (openL ++ b) = false) :
    ∀ (n : Nat) (a : List Char), a.length < n →
    extractWrites (a ++ (openL ++ b)) = extractWrites a ∧
    removeFieldCommands (a ++ (openL ++ b)) = removeFieldCommands a ++ (openL ++ b) := by
  intro n
  induction n with
  | zero => intro a ha; omega
  | succ n ih =>
    intro a ha
    rw [extractWrites_eq (a ++ (openL ++ b)), removeFieldCommands_eq (a ++ (openL ++ b)),
      extractWrites_eq a, removeFieldCommands_eq a, matchNext_append_closefree hX a]
    cases hm : matchNext a with
    | none => exact ⟨rfl, rfl⟩
    | some q =>
      obtain ⟨pre, id, body, rest⟩ := q
      have hrest := matchNext_rest_length hm
      obtain ⟨h1, h2⟩ := ih rest (by omega)
      constructor
      · show (trimJS id, trimJS body) :: extractWrites (rest ++ (openL ++ b))
            = (trimJS id, trimJS body) :: extractWrites rest
        rw [h1]
      · show pre ++ removeFieldCommands (rest ++ (openL ++ b))
            = (pre ++ removeFieldCommands rest) ++ (openL ++ b)
        rw [h2, List.append_assoc]

/-- C10: for a text `a ++ [WRITE_FIELD: ++ b` whose open tag has no
matching `[/WRITE_FIELD]` after it, no write is extracted for that tag
(the extraction equals that of `a` alone), and stripping leaves the
unmatched open tag and its trailing text verbatim in the display
output. -/
theorem c10_unmatchedOpenTag (a b : List Char)
    (h : containsSub closeL (openL ++ b) = false) :
    extractWrites (a ++ (openL ++ b)) = extractWrites a ∧
    removeFieldCommands (a ++ (openL ++ b)) = removeFieldCommands a ++ (openL ++ b) :=
  c10_core h (a.length + 1) a (by omega)

theorem c10_unmatchedOpenTag_witness :
    (containsSub closeL (openL ++ "title]Hello wor".data) = false) ∧
    (extractWrites ("Sure: [WRITE_FIELD:x]1[/WRITE_FIELD] ".data ++ (openL ++ "title]Hello wor".data))
        = extractWrites "Sure: [WRITE_FIELD:x]1[/WRITE_FIELD] ".data ∧
      removeFieldCommands ("Sure: [WRITE_FIELD:x]1[/WRITE_FIELD] ".data ++ (openL ++ "title]Hello wor".data))
        = removeFieldCommands "Sure: [WRITE_FIELD:x]1[/WRITE_FIELD] ".data ++ (openL ++ "title]Hello wor".data)) ∧
    extractWrites "Sure: [WRITE_FIELD:x]1[/WRITE_FIELD] ".data = [("x".data, "1".data)] ∧
    removeFieldCommands "Sure: [WRITE_FIELD:x]1[/WRITE_FIELD] ".data = "Sure:  ".data :=
  ⟨by decide, c10_unmatchedOpenTag _ _ (by decide), by decide, by decide⟩

end AIAgentWidget
